import Mathlib

/-!
# Stratum.h: status taxonomy, job ids, local job tracking, versioned share codec

A shallow embedding of `src/Stratum.h` of btcpool.

* C `int` status codes are `Int`; every enumerator fits in 32 bits.
* `uint32_t` / `uint64_t` values are `Nat`, reduced `% 2^32` / `% 2^64` where the
  C++ type truncates.
* `std::set<K>` is a strictly increasing list of keys, searched and extended with
  the key comparison only, as the container does.
* `std::string` / byte buffers are lists of bytes (`Fin 256`); worker names are
  lists of characters.
* `StratumWorker`: the accessors are in the header; the constructor,
  `setChainIdAndUserId`, `setNames` and `filterWorkerName` are declared there
  without a body and follow the specification text.
-/

set_option autoImplicit false

namespace Stratum

/-! ## jobId2Time -/

/-- Function `jobId2Time`: `(uint32_t)((jobId >> 32) & 0x00000000FFFFFFFFULL)` on a `uint64_t`. -/
def jobId2Time (jobId : Nat) : Nat :=
  (((jobId % 2 ^ 64) >>> 32) &&& 0x00000000FFFFFFFF) % 2 ^ 32

/-- The 64-bit job id `(T << 32) | L` built from a creation time and a low part,
both widened to `uint64_t` before the shift. -/
def makeJobId (T L : Nat) : Nat :=
  (((T % 2 ^ 64) <<< 32) % 2 ^ 64) ||| (L % 2 ^ 64)

/-- Class `StratumJob`: only the data member declared in the header, `jobId_`. -/
structure StratumJob where
  jobId_ : Nat

/-- Method `StratumJob::jobTime`: `return jobId2Time(jobId_);`. -/
def StratumJob.jobTime (job : StratumJob) : Nat :=
  jobId2Time job.jobId_

/-! ## StratumStatus -/

namespace StratumStatus

def ACCEPT : Int := 1798084231
def ACCEPT_STALE : Int := 950395421
def SOLVED : Int := 1422486894
def SOLVED_STALE : Int := 1713984938
def SOLVED_PRELIMINARY : Int := 1835617709
def REJECT_NO_REASON : Int := 0
def JOB_NOT_FOUND_OR_STALE : Int := 21
def DUPLICATE_SHARE : Int := 22
def LOW_DIFFICULTY : Int := 23
def UNAUTHORIZED : Int := 24
def NOT_SUBSCRIBED : Int := 25
def ILLEGAL_METHOD : Int := 26
def ILLEGAL_PARARMS : Int := 27
def IP_BANNED : Int := 28
def INVALID_USERNAME : Int := 29
def INTERNAL_ERROR : Int := 30
def TIME_TOO_OLD : Int := 31
def TIME_TOO_NEW : Int := 32
def ILLEGAL_VERMASK : Int := 33
def INVALID_SOLUTION : Int := 34
def WRONG_NONCE_PREFIX : Int := 35
def JOB_NOT_FOUND : Int := 36
def STALE_SHARE : Int := 37
/-- Present only under `#ifdef WORK_WITH_STRATUM_SWITCHER`. -/
def CLIENT_IS_NOT_SWITCHER : Int := 400
def UNKNOWN : Int := 2147483647

/-- Predicate `isAccepted`. -/
def isAccepted (status : Int) : Bool :=
  (status == ACCEPT) || (status == ACCEPT_STALE) ||
    (status == SOLVED) || (status == SOLVED_STALE)

/-- Predicate `isAcceptedStale`. -/
def isAcceptedStale (status : Int) : Bool :=
  (status == ACCEPT_STALE) || (status == SOLVED_STALE)

/-- Predicate `isRejectedStale`. -/
def isRejectedStale (status : Int) : Bool :=
  (status == JOB_NOT_FOUND_OR_STALE) || (status == STALE_SHARE)

/-- Predicate `isAnyStale`. -/
def isAnyStale (status : Int) : Bool :=
  isAcceptedStale status || isRejectedStale status

/-- Predicate `isSolved`. -/
def isSolved (status : Int) : Bool :=
  (status == SOLVED) || (status == SOLVED_STALE) ||
    (status == SOLVED_PRELIMINARY)

/-- The five acceptance enumerators, in declaration order. -/
def acceptanceCodes : List Int :=
  [ACCEPT, ACCEPT_STALE, SOLVED, SOLVED_STALE, SOLVED_PRELIMINARY]

/-- The rejection enumerators in declaration order; `CLIENT_IS_NOT_SWITCHER` is
declared only when `WORK_WITH_STRATUM_SWITCHER` is defined. -/
def rejectionCodes (switcher : Bool) : List Int :=
  [REJECT_NO_REASON, JOB_NOT_FOUND_OR_STALE, DUPLICATE_SHARE, LOW_DIFFICULTY,
   UNAUTHORIZED, NOT_SUBSCRIBED, ILLEGAL_METHOD, ILLEGAL_PARARMS, IP_BANNED,
   INVALID_USERNAME, INTERNAL_ERROR, TIME_TOO_OLD, TIME_TOO_NEW, ILLEGAL_VERMASK,
   INVALID_SOLUTION, WRONG_NONCE_PREFIX, JOB_NOT_FOUND, STALE_SHARE] ++
  (if switcher then [CLIENT_IS_NOT_SWITCHER] else [])

/-- Every enumerator of the `StratumStatus` enum, in declaration order. -/
def definedCodes (switcher : Bool) : List Int :=
  acceptanceCodes ++ rejectionCodes switcher ++ [UNKNOWN]

end StratumStatus

/-! ## StratumWorker -/

/-- Macro `DEFAULT_WORKER_NAME`, the text `__default__`. -/
def DEFAULT_WORKER_NAME : List Char :=
  ['_', '_', 'd', 'e', 'f', 'a', 'u', 'l', 't', '_', '_']

/-- Class `StratumWorker`: `chainId_` (an atomic `size_t`, here its value),
`userIds_` (one `int32_t` per chain), `workerHashId_` and the three names;
a `std::string` is the list of its characters. -/
structure StratumWorker where
  chainId_ : Nat
  userIds_ : List Int
  workerHashId_ : Int
  fullName_ : List Char
  userName_ : List Char
  workerName_ : List Char

/-- Method `StratumWorker::userId()`: `return userIds_[chainId_];`, `none` when the
index is outside the vector. -/
def StratumWorker.userId (self : StratumWorker) : Option Int :=
  self.userIds_[self.chainId_]?

/-- Method `StratumWorker::userId(chainId)`: `return userIds_[chainId];`, `none` when
the index is outside the vector. -/
def StratumWorker.userIdAt (self : StratumWorker) (chainId : Nat) : Option Int :=
  self.userIds_[chainId]?

/-- Modelled from the spec: the constructor `StratumWorker(chainSize)`, whose body
is not in the header. The spec: `userIds_` is a fixed-size vector with one slot
per configured chain, and slots for chains the worker has not joined remain
default/invalid. `invalidUserId` is that invalid sentinel, whose value the spec
leaves open. The spec does not fix the first active chain; 0 is taken. -/
def StratumWorker.new (chainSize : Nat) (invalidUserId : Int) : StratumWorker :=
  { chainId_ := 0
    userIds_ := List.replicate chainSize invalidUserId
    workerHashId_ := 0
    fullName_ := []
    userName_ := []
    workerName_ := [] }

/-- Modelled from the spec: `setChainIdAndUserId(chainId, userId)`, whose body is
not in the header. The spec: it records the resolved user id for a specific
chain and marks that chain as the currently active one. -/
def StratumWorker.setChainIdAndUserId (self : StratumWorker) (chainId : Nat) (userId : Int) :
    StratumWorker :=
  { self with userIds_ := self.userIds_.set chainId userId, chainId_ := chainId }

/-- A sequence of `setChainIdAndUserId` calls on one worker, in order. -/
def StratumWorker.setChainIdAndUserIds (self : StratumWorker) :
    List (Nat × Int) → StratumWorker
  | [] => self
  | cu :: rest => (self.setChainIdAndUserId cu.1 cu.2).setChainIdAndUserIds rest

/-- Modelled from the spec: the configuration the name handling consumes and the
header does not define: the allowed character set of a worker name, the maximum
worker name length (normal and extended) and the worker id derivation
`calcWorkerId`. -/
structure NameConfig where
  allowedChar : Char → Bool
  maxWorkerNameLen : Nat
  maxWorkerNameLenExtra : Nat
  calcWorkerId : List Char → Int

/-- Modelled from the spec: `filterWorkerName`, declared in the header without a
body. The spec: the name filter strips characters outside an allowed set and
truncates to a maximum length, a longer maximum when `extraLength` is requested. -/
def filterWorkerName (cfg : NameConfig) (extralength : Bool) (workerName : List Char) :
    List Char :=
  (workerName.filter cfg.allowedChar).take
    (if extralength then cfg.maxWorkerNameLenExtra else cfg.maxWorkerNameLen)

/-- The part of a full name before its first `.` and, when there is a `.`, the part
after it. -/
def splitFirstDot : List Char → List Char × Option (List Char)
  | [] => ([], none)
  | c :: cs =>
    if c = '.' then ([], some cs)
    else (c :: (splitFirstDot cs).1, (splitFirstDot cs).2)

/-- Modelled from the spec: `StratumWorker::setNames`, whose body is not in the
header. The spec: split `fullName` into username/workername on the first `.`;
without a `.` the workername is the default name; apply `userNormalizer` to the
username; in single-user mode the username is forced to `singleUserName` and the
entire input is the workername; the workername goes through the name filter; a
name of which nothing is left reverts to the default worker name; `fullName_`
is recomputed as `userName_ + "." + workerName_` and `workerHashId_` is derived
from the final workername. -/
def StratumWorker.setNames (cfg : NameConfig) (self : StratumWorker) (fullName : List Char)
    (userNormalizer : List Char → List Char) (singleUserMode : Bool)
    (singleUserName : List Char) (extralength : Bool) : StratumWorker :=
  let userName : List Char :=
    if singleUserMode then singleUserName else userNormalizer (splitFirstDot fullName).1
  let rawWorker : Option (List Char) :=
    if singleUserMode then some fullName else (splitFirstDot fullName).2
  let workerName : List Char :=
    match rawWorker with
    | none => DEFAULT_WORKER_NAME
    | some w =>
      if filterWorkerName cfg extralength w = [] then DEFAULT_WORKER_NAME
      else filterWorkerName cfg extralength w
  { self with
    userName_ := userName
    workerName_ := workerName
    fullName_ := userName ++ '.' :: workerName
    workerHashId_ := cfg.calcWorkerId workerName }

/-- A configuration for examples: letters and digits are allowed, at most 20
characters (the header notes `workername, max is: 20`), 64 when extended. -/
def exampleNameConfig : NameConfig :=
  { allowedChar := fun c => c.isAlphanum
    maxWorkerNameLen := 20
    maxWorkerNameLenExtra := 64
    calcWorkerId := fun w => (w.length : Int) }

/-! ## LocalJob / LocalJobBase -/

/-- Struct `LocalJob`. -/
structure LocalJob where
  chainId_ : Nat
  jobId_ : Nat

/-- Operator `LocalJob::operator==(uint64_t jobId)`: `return jobId_ == jobId;`. -/
def LocalJob.eqJobId (self : LocalJob) (jobId : Nat) : Bool :=
  self.jobId_ == jobId

/-- Container operation `std::set<K>::insert(k)` on the increasing list of the
keys held: the keys after the call and the `.second` of the pair it returns (whether the key was
inserted). Only the key comparison `<` is used: `k` is placed before the first
key greater than it, and nothing is inserted when a key that is neither less
nor greater is met. -/
def setInsert {K : Type} [LinearOrder K] : List K → K → List K × Bool
  | [], k => ([k], true)
  | x :: xs, k =>
    if k < x then (k :: x :: xs, true)
    else if x < k then ((x :: (setInsert xs k).1), (setInsert xs k).2)
    else (x :: xs, false)

/-- Struct `LocalJobBase<LocalShareType> : LocalJob` with `submitShares_`. -/
structure LocalJobBase (K : Type) extends LocalJob where
  submitShares_ : List K

/-- The constructor `LocalJobBase(chainId, jobId)`: the share set starts empty. -/
def LocalJobBase.new {K : Type} (chainId jobId : Nat) : LocalJobBase K :=
  { chainId_ := chainId, jobId_ := jobId, submitShares_ := [] }

/-- Method `LocalJobBase::addLocalShare`: `return submitShares_.insert(localShare).second;`,
with the object after the call. -/
def LocalJobBase.addLocalShare {K : Type} [LinearOrder K] (self : LocalJobBase K)
    (localShare : K) : LocalJobBase K × Bool :=
  ({ self with submitShares_ := (setInsert self.submitShares_ localShare).1 },
   (setInsert self.submitShares_ localShare).2)

/-- A sequence of `addLocalShare` calls on one object, in order: the object after
the last call and the value each call returned. -/
def LocalJobBase.addLocalShares {K : Type} [LinearOrder K] (self : LocalJobBase K) :
    List K → LocalJobBase K × List Bool
  | [] => (self, [])
  | k :: ks =>
    (((self.addLocalShare k).1.addLocalShares ks).1,
     (self.addLocalShare k).2 :: ((self.addLocalShare k).1.addLocalShares ks).2)

/-! ## sharebase: versioned share serialization -/

namespace sharebase

/-- One byte of a `std::string` or of a `uint8_t` buffer. -/
abbrev Byte := Fin 256

/-- Byte order of the platform (`reinterpret_cast<uint32_t *>` reads and writes the
native representation). -/
inductive Endian where
  | little
  | big
  deriving DecidableEq, Repr

/-- The 4 bytes of a `uint32_t` in memory order. -/
def encode32 (e : Endian) (v : Nat) : List Byte :=
  match e with
  | .little =>
    [⟨v % 256, Nat.mod_lt _ (by decide)⟩, ⟨v / 256 % 256, Nat.mod_lt _ (by decide)⟩,
     ⟨v / 65536 % 256, Nat.mod_lt _ (by decide)⟩, ⟨v / 16777216 % 256, Nat.mod_lt _ (by decide)⟩]
  | .big =>
    [⟨v / 16777216 % 256, Nat.mod_lt _ (by decide)⟩, ⟨v / 65536 % 256, Nat.mod_lt _ (by decide)⟩,
     ⟨v / 256 % 256, Nat.mod_lt _ (by decide)⟩, ⟨v % 256, Nat.mod_lt _ (by decide)⟩]

/-- The `uint32_t` read from bytes in memory order. -/
def decode32 (e : Endian) (bs : List Byte) : Nat :=
  match e with
  | .little => bs.foldr (fun b acc => b.val + 256 * acc) 0
  | .big => bs.foldl (fun acc b => 256 * acc + b.val) 0

/-- String operation `std::string::resize(n)`: keeps the first `n` bytes and pads
with zero bytes. -/
def resize (data : List Byte) (n : Nat) : List Byte :=
  data.take n ++ List.replicate (n - data.length) (0 : Byte)

/-- Store `*reinterpret_cast<uint32_t *>(&data[0]) = v`: overwrites the first 4 bytes. -/
def store32 (e : Endian) (data : List Byte) (v : Nat) : List Byte :=
  encode32 e (v % 2 ^ 32) ++ data.drop 4

/-- Load `*reinterpret_cast<const uint32_t *>(data)`: reads the first 4 bytes. -/
def load32 (e : Endian) (data : List Byte) : Nat :=
  decode32 e (data.take 4)

/-- The members of the `ShareMsg` template parameter (a protobuf message class)
that the wrappers call. `nativeSerialize m` is the success flag of the native
serializer and the bytes it emits; `ParseFromArray self bytes` is the flag the
native parser returns and the message object after the call. -/
structure ShareMsg (M : Type) where
  version : M → Nat
  nativeSerialize : M → Bool × List Byte
  ParseFromArray : M → List Byte → Bool × M

/-- Method `ShareMsg::AppendToString(&data)`: appends the native serialization to the
existing contents of `data` and returns the serializer's flag. -/
def ShareMsg.AppendToString {M : Type} (ops : ShareMsg M) (self : M) (data : List Byte) :
    Bool × List Byte :=
  ((ops.nativeSerialize self).1, data ++ (ops.nativeSerialize self).2)

/-- Method `Serializable::SerializeToStringWithVersion(data)`: the returned flag and
`data` after the call. -/
def SerializeToStringWithVersion {M : Type} (e : Endian) (ops : ShareMsg M) (self : M)
    (data : List Byte) : Bool × List Byte :=
  ops.AppendToString self (store32 e (resize data 4) (ops.version self))

/-- Method `Unserializable::UnserializeWithVersion(data, size)`: the returned flag and
the message object after the call. `data` is `none` for a null pointer,
otherwise the bytes at the pointer; `sizeof(size)` and `sizeof(uint32_t)` are 4. -/
def UnserializeWithVersion {M : Type} (e : Endian) (ops : ShareMsg M) (CURRENT_VERSION : Nat)
    (self : M) (data : Option (List Byte)) (size : Nat) : Bool × M :=
  match data with
  | none => (false, self)
  | some mem =>
    if size ≤ 4 then (false, self)
    else if load32 e mem = CURRENT_VERSION % 2 ^ 32 then
      ops.ParseFromArray self ((mem.drop 4).take (size - 4))
    else (false, self)

/-- A message with the single field `uint32 version = 1`, values below 128, under
proto3 wire rules: the default value 0 is not written, any other value is the
tag byte `0x08` followed by the one-byte varint. -/
def versionOnlyMsg : ShareMsg (Fin 128) where
  version := fun m => m.val
  nativeSerialize := fun m =>
    (true, if m.val = 0 then [] else [(8 : Byte), ⟨m.val, by omega⟩])
  ParseFromArray := fun self bytes =>
    match bytes with
    | [] => (true, (0 : Fin 128))
    | [t, b] => if h : t.val = 8 ∧ b.val < 128 then (true, ⟨b.val, h.2⟩) else (false, self)
    | _ => (false, self)

end sharebase

end Stratum

namespace Stratum

/-! ## Lemmas on the ordered share set -/

section SetLemmas

variable {K : Type} [LinearOrder K]

theorem mem_setInsert (l : List K) (k x : K) :
    x ∈ (setInsert l k).1 ↔ x = k ∨ x ∈ l := by
  induction l with
  | nil => simp [setInsert]
  | cons y ys ih =>
    unfold setInsert
    by_cases h1 : k < y
    · simp [h1]
    · by_cases h2 : y < k
      · simp only [h1, h2, if_true, if_false, List.mem_cons, ih]
        tauto
      · have hk : k = y := le_antisymm (not_lt.mp h2) (not_lt.mp h1)
        simp only [h1, h2, if_false, List.mem_cons]
        subst hk
        tauto

theorem setInsert_sorted (l : List K) (k : K) (h : l.Sorted (· < ·)) :
    (setInsert l k).1.Sorted (· < ·) := by
  induction l with
  | nil => simp [setInsert]
  | cons y ys ih =>
    unfold setInsert
    by_cases h1 : k < y
    · simp only [h1, if_true]
      refine List.sorted_cons.mpr ⟨?_, h⟩
      intro b hb
      rcases List.mem_cons.mp hb with rfl | hb
      · exact h1
      · exact lt_trans h1 (List.rel_of_sorted_cons h b hb)
    · by_cases h2 : y < k
      · simp only [h1, h2, if_true, if_false]
        refine List.sorted_cons.mpr ⟨?_, ih (List.Sorted.of_cons h)⟩
        intro b hb
        rcases (mem_setInsert ys k b).mp hb with rfl | hb
        · exact h2
        · exact List.rel_of_sorted_cons h b hb
      · simpa only [h1, h2, if_false] using h

theorem setInsert_snd (l : List K) (k : K) (h : l.Sorted (· < ·)) :
    (setInsert l k).2 = true ↔ k ∉ l := by
  induction l with
  | nil => simp [setInsert]
  | cons y ys ih =>
    unfold setInsert
    by_cases h1 : k < y
    · simp only [h1, if_true, List.mem_cons, true_iff, not_or]
      refine ⟨ne_of_lt h1, fun hk => ?_⟩
      exact lt_asymm h1 (List.rel_of_sorted_cons h k hk)
    · by_cases h2 : y < k
      · simp only [h1, h2, if_true, if_false, List.mem_cons, not_or,
          ih (List.Sorted.of_cons h)]
        exact ⟨fun hk => ⟨ne_of_gt h2, hk⟩, fun hk => hk.2⟩
      · have hk : k = y := le_antisymm (not_lt.mp h2) (not_lt.mp h1)
        simp [h1, h2, hk]

theorem setInsert_again (l : List K) (k : K) :
    (setInsert (setInsert l k).1 k).2 = false := by
  induction l with
  | nil => simp [setInsert]
  | cons y ys ih =>
    by_cases h1 : k < y
    · simp [setInsert, h1]
    · by_cases h2 : y < k
      · simp [setInsert, h1, h2, ih]
      · simp [setInsert, h1, h2]

theorem addLocalShares_sorted (job : LocalJobBase K) (ks : List K)
    (h : job.submitShares_.Sorted (· < ·)) :
    (job.addLocalShares ks).1.submitShares_.Sorted (· < ·) := by
  induction ks generalizing job with
  | nil => simpa [LocalJobBase.addLocalShares] using h
  | cons k ks ih =>
    simp only [LocalJobBase.addLocalShares]
    exact ih _ (setInsert_sorted _ _ h)

theorem mem_addLocalShares (job : LocalJobBase K) (ks : List K) (x : K) :
    x ∈ (job.addLocalShares ks).1.submitShares_ ↔ x ∈ ks ∨ x ∈ job.submitShares_ := by
  induction ks generalizing job with
  | nil => simp [LocalJobBase.addLocalShares]
  | cons k ks ih =>
    simp only [LocalJobBase.addLocalShares, ih, LocalJobBase.addLocalShare, mem_setInsert,
      List.mem_cons]
    tauto

end SetLemmas

end Stratum

namespace Stratum

namespace sharebase

/-! ## Lemmas on the byte-level helpers -/

theorem encode32_length (e : Endian) (v : Nat) : (encode32 e v).length = 4 := by
  cases e <;> rfl

theorem decode32_encode32 (e : Endian) (v : Nat) (hv : v < 2 ^ 32) :
    decode32 e (encode32 e v) = v := by
  cases e <;> simp only [encode32, decode32, List.foldr, List.foldl] <;> omega

theorem resize_length (data : List Byte) (n : Nat) : (resize data n).length = n := by
  simp only [resize, List.length_append, List.length_take, List.length_replicate]
  omega

theorem store32_resize (e : Endian) (data : List Byte) (v : Nat) :
    store32 e (resize data 4) v = encode32 e (v % 2 ^ 32) := by
  have h : (resize data 4).drop 4 = [] :=
    List.drop_eq_nil_of_le (le_of_eq (resize_length data 4))
  simp [store32, h]

theorem serialize_eq {M : Type} (e : Endian) (ops : ShareMsg M) (m : M) (data : List Byte) :
    SerializeToStringWithVersion e ops m data =
      ((ops.nativeSerialize m).1,
       encode32 e (ops.version m % 2 ^ 32) ++ (ops.nativeSerialize m).2) := by
  simp [SerializeToStringWithVersion, ShareMsg.AppendToString, store32_resize]

theorem load32_encode32_append (e : Endian) (v : Nat) (rest : List Byte) (hv : v < 2 ^ 32) :
    load32 e (encode32 e v ++ rest) = v := by
  have h : (encode32 e v ++ rest).take 4 = encode32 e v := by
    rw [List.take_append_of_le_length (le_of_eq (encode32_length e v).symm)]
    exact List.take_of_length_le (le_of_eq (encode32_length e v))
  rw [load32, h, decode32_encode32 e v hv]

theorem drop4_encode32_append (e : Endian) (v : Nat) (rest : List Byte) :
    (encode32 e v ++ rest).drop 4 = rest := by
  have h := List.drop_left (encode32 e v) rest
  rwa [encode32_length] at h

end sharebase

end Stratum

namespace Stratum

open StratumStatus

theorem isAccepted_iff (status : Int) :
    isAccepted status = true ↔
      status = ACCEPT ∨ status = ACCEPT_STALE ∨ status = SOLVED ∨ status = SOLVED_STALE := by
  simp [isAccepted, or_assoc]

theorem isSolved_iff (status : Int) :
    isSolved status = true ↔
      status = SOLVED ∨ status = SOLVED_STALE ∨ status = SOLVED_PRELIMINARY := by
  simp [isSolved, or_assoc]

theorem isAcceptedStale_iff (status : Int) :
    isAcceptedStale status = true ↔ status = ACCEPT_STALE ∨ status = SOLVED_STALE := by
  simp [isAcceptedStale]

theorem isRejectedStale_iff (status : Int) :
    isRejectedStale status = true ↔ status = JOB_NOT_FOUND_OR_STALE ∨ status = STALE_SHARE := by
  simp [isRejectedStale]

theorem isAnyStale_iff (status : Int) :
    isAnyStale status = true ↔
      status = ACCEPT_STALE ∨ status = SOLVED_STALE ∨
        status = JOB_NOT_FOUND_OR_STALE ∨ status = STALE_SHARE := by
  simp [isAnyStale, isAcceptedStale_iff, isRejectedStale_iff, or_assoc]

theorem and_mask32 (x : Nat) : x &&& 0x00000000FFFFFFFF = x % 2 ^ 32 := by
  have h : (0x00000000FFFFFFFF : Nat) = 2 ^ 32 - 1 := by norm_num
  rw [h, Nat.and_pow_two_sub_one_eq_mod]

theorem makeJobId_eq (T L : Nat) (hT : T < 2 ^ 32) (hL : L < 2 ^ 32) :
    makeJobId T L = T * 2 ^ 32 + L := by
  unfold makeJobId
  have h1 : T % 2 ^ 64 = T := Nat.mod_eq_of_lt (by omega)
  have h2 : L % 2 ^ 64 = L := Nat.mod_eq_of_lt (by omega)
  have h3 : (T <<< 32) % 2 ^ 64 = T <<< 32 := by
    rw [Nat.shiftLeft_eq]; apply Nat.mod_eq_of_lt; omega
  rw [h1, h2, h3, Nat.shiftLeft_eq, Nat.mul_comm]
  exact (Nat.mul_add_lt_is_or hL T).symm

section CountLemma

variable {K : Type} [LinearOrder K]

/-- Number of calls of a sequence that were made with key `k` and returned true. -/
theorem count_true_calls (job : LocalJobBase K) (ks : List K) (k : K)
    (h : job.submitShares_.Sorted (· < ·)) :
    ((ks.zip (job.addLocalShares ks).2).filter (fun p => decide (p.1 = k) && p.2)).length =
      if k ∈ ks ∧ k ∉ job.submitShares_ then 1 else 0 := by
  induction ks generalizing job with
  | nil => simp [LocalJobBase.addLocalShares]
  | cons a ks ih =>
    have hs : (job.addLocalShare a).1.submitShares_.Sorted (· < ·) :=
      setInsert_sorted _ _ h
    have hm : k ∈ (job.addLocalShare a).1.submitShares_ ↔ k = a ∨ k ∈ job.submitShares_ :=
      mem_setInsert _ _ _
    have hr : (job.addLocalShare a).2 = true ↔ a ∉ job.submitShares_ :=
      setInsert_snd _ _ h
    simp only [LocalJobBase.addLocalShares, List.zip_cons_cons, List.filter_cons]
    by_cases hak : a = k
    · subst hak
      by_cases hin : a ∈ job.submitShares_
      · have hf : (job.addLocalShare a).2 = false := by
          cases hb : (job.addLocalShare a).2
          · rfl
          · exact absurd hin (hr.mp hb)
        simp [hf, ih _ hs, hm, hin]
      · have ht : (job.addLocalShare a).2 = true := hr.mpr hin
        simp [ht, ih _ hs, hm, hin]
    · have hka : ¬ k = a := fun h => hak h.symm
      simp [hak, hka, ih _ hs, hm]

end CountLemma

/-! ## Properties of the specification -/

/-- C1 (as stated, refuted): the one-field proto3 message with `version = 0` and
`CURRENT_VERSION = 0` is valid in the sense of the claim (the native serializer
succeeds, the native parser reads the serialization back as the message, and the
version is the current one), its native serialization is empty, so the encoded
buffer has exactly 4 bytes and `UnserializeWithVersion` rejects it. -/
theorem roundtrip_fails_on_empty_serialization :
    (sharebase.versionOnlyMsg.nativeSerialize 0).1 = true ∧
    sharebase.versionOnlyMsg.ParseFromArray 5 (sharebase.versionOnlyMsg.nativeSerialize 0).2
      = (true, 0) ∧
    sharebase.versionOnlyMsg.version 0 % 2 ^ 32 = 0 % 2 ^ 32 ∧
    sharebase.SerializeToStringWithVersion .little sharebase.versionOnlyMsg 0 []
      = (true, [0, 0, 0, 0]) ∧
    sharebase.UnserializeWithVersion .little sharebase.versionOnlyMsg 0 5
      (some (sharebase.SerializeToStringWithVersion .little sharebase.versionOnlyMsg 0 []).2)
      ((sharebase.SerializeToStringWithVersion .little sharebase.versionOnlyMsg 0 []).2.length
        % 2 ^ 32)
      = (false, 5) := by
  decide

/-- C1 (amended): for every message `m` whose native serialization succeeds, is
not empty and fits, with the 4-byte prefix, in the 32-bit `size` argument, which
the native parser reads back as `m`, and whose `version()` equals
`CURRENT_VERSION`: `SerializeToStringWithVersion` returns true and
`UnserializeWithVersion` on the bytes it produced returns true and leaves a
message equal to `m`. -/
theorem unserialize_serialize_roundtrip {M : Type} (e : sharebase.Endian)
    (ops : sharebase.ShareMsg M) (CURRENT_VERSION : Nat) (m self : M)
    (prior : List sharebase.Byte)
    (hser : (ops.nativeSerialize m).1 = true)
    (hparse : ops.ParseFromArray self (ops.nativeSerialize m).2 = (true, m))
    (hver : ops.version m % 2 ^ 32 = CURRENT_VERSION % 2 ^ 32)
    (hne : (ops.nativeSerialize m).2 ≠ [])
    (hsize : 4 + (ops.nativeSerialize m).2.length < 2 ^ 32) :
    (sharebase.SerializeToStringWithVersion e ops m prior).1 = true ∧
    sharebase.UnserializeWithVersion e ops CURRENT_VERSION self
      (some (sharebase.SerializeToStringWithVersion e ops m prior).2)
      ((sharebase.SerializeToStringWithVersion e ops m prior).2.length % 2 ^ 32)
      = (true, m) := by
  have hpos : 0 < (ops.nativeSerialize m).2.length := List.length_pos.mpr hne
  have hlen : (sharebase.encode32 e (ops.version m % 2 ^ 32)
      ++ (ops.nativeSerialize m).2).length = 4 + (ops.nativeSerialize m).2.length := by
    rw [List.length_append, sharebase.encode32_length]
  have hlt : ops.version m % 2 ^ 32 < 2 ^ 32 := Nat.mod_lt _ (by norm_num)
  rw [sharebase.serialize_eq]
  refine ⟨hser, ?_⟩
  simp only [sharebase.UnserializeWithVersion, hlen, Nat.mod_eq_of_lt hsize]
  rw [if_neg (by omega), sharebase.load32_encode32_append e _ _ hlt, if_pos hver,
    sharebase.drop4_encode32_append]
  have ht : (ops.nativeSerialize m).2.take (4 + (ops.nativeSerialize m).2.length - 4)
      = (ops.nativeSerialize m).2 := List.take_of_length_le (by omega)
  rw [ht, hparse]

theorem unserialize_serialize_roundtrip_witness :
    sharebase.UnserializeWithVersion .big sharebase.versionOnlyMsg 3 0
      (some (sharebase.SerializeToStringWithVersion .big sharebase.versionOnlyMsg 3
        [1, 2, 3, 4, 5, 6]).2)
      ((sharebase.SerializeToStringWithVersion .big sharebase.versionOnlyMsg 3
        [1, 2, 3, 4, 5, 6]).2.length % 2 ^ 32)
      = (true, 3) :=
  (unserialize_serialize_roundtrip .big sharebase.versionOnlyMsg 3 3 0 [1, 2, 3, 4, 5, 6]
    (by decide) (by decide) (by decide) (by decide) (by decide)).2

/-- C2: `UnserializeWithVersion` returns false (and leaves the message untouched)
when the pointer is null, when `size <= 4`, and when the first 4 bytes read as a
native `uint32_t` differ from `CURRENT_VERSION`, for every native parser. -/
theorem unserialize_rejects_short_or_wrong_version {M : Type} (e : sharebase.Endian)
    (ops : sharebase.ShareMsg M) (CURRENT_VERSION : Nat) (self : M)
    (data : Option (List sharebase.Byte)) (size : Nat)
    (h : data = none ∨ size ≤ 4 ∨
      ∃ mem, data = some mem ∧ sharebase.load32 e mem ≠ CURRENT_VERSION % 2 ^ 32) :
    sharebase.UnserializeWithVersion e ops CURRENT_VERSION self data size = (false, self) := by
  rcases h with h | h | ⟨mem, h, hv⟩
  · subst h; rfl
  · cases data with
    | none => rfl
    | some mem => simp [sharebase.UnserializeWithVersion, h]
  · subst h
    simp only [sharebase.UnserializeWithVersion, if_neg hv]
    split <;> rfl

theorem unserialize_rejects_short_or_wrong_version_witness :
    sharebase.UnserializeWithVersion .little sharebase.versionOnlyMsg 3 0
      (some [1, 0, 0, 0, 8, 3]) 6 = (false, 0) :=
  unserialize_rejects_short_or_wrong_version .little sharebase.versionOnlyMsg 3 0
    (some [1, 0, 0, 0, 8, 3]) 6 (Or.inr (Or.inr ⟨[1, 0, 0, 0, 8, 3], rfl, by decide⟩))

/-- C3: for every message and every prior content of the output string,
`SerializeToStringWithVersion` leaves the string equal to the 4 bytes of the
native encoding of `version()` followed by the native serialization, of length
`4 + nativeSize`, and returns the flag of the native serializer. -/
theorem serialize_output_is_version_then_native {M : Type} (e : sharebase.Endian)
    (ops : sharebase.ShareMsg M) (m : M) (prior : List sharebase.Byte) :
    (sharebase.SerializeToStringWithVersion e ops m prior).2 =
      sharebase.encode32 e (ops.version m % 2 ^ 32) ++ (ops.nativeSerialize m).2 ∧
    (sharebase.encode32 e (ops.version m % 2 ^ 32)).length = 4 ∧
    (sharebase.SerializeToStringWithVersion e ops m prior).2.length =
      4 + (ops.nativeSerialize m).2.length ∧
    (sharebase.SerializeToStringWithVersion e ops m prior).1 = (ops.nativeSerialize m).1 := by
  rw [sharebase.serialize_eq]
  refine ⟨rfl, sharebase.encode32_length _ _, ?_, rfl⟩
  simp only [List.length_append, sharebase.encode32_length]

/-- C4: on a `LocalJobBase` that starts with an empty share set, the first call
`addLocalShare(k)` (after any calls `pre` with other keys) returns true, every
later call with an equal key (after any further calls `mid`) returns false, and
over a whole sequence of calls that contains `k` exactly one call with key `k`
returns true. -/
theorem addLocalShare_true_exactly_once {K : Type} [LinearOrder K] (chainId jobId : Nat)
    (k : K) (pre mid post : List K) (hpre : k ∉ pre) :
    ((((LocalJobBase.new chainId jobId : LocalJobBase K).addLocalShares pre).1).addLocalShare
        k).2 = true ∧
    ((((((LocalJobBase.new chainId jobId : LocalJobBase K).addLocalShares pre).1).addLocalShare
        k).1.addLocalShares mid).1.addLocalShare k).2 = false ∧
    (((pre ++ k :: post).zip
        ((LocalJobBase.new chainId jobId : LocalJobBase K).addLocalShares
          (pre ++ k :: post)).2).filter (fun p => decide (p.1 = k) && p.2)).length = 1 := by
  have h0 : (LocalJobBase.new chainId jobId : LocalJobBase K).submitShares_.Sorted (· < ·) := by
    simp [LocalJobBase.new]
  have h1 := addLocalShares_sorted _ pre h0
  refine ⟨?_, ?_, ?_⟩
  · refine (setInsert_snd _ _ h1).mpr ?_
    rw [mem_addLocalShares]
    simp [hpre, LocalJobBase.new]
  · have h2 : ((((LocalJobBase.new chainId jobId : LocalJobBase K).addLocalShares
        pre).1).addLocalShare k).1.submitShares_.Sorted (· < ·) := setInsert_sorted _ _ h1
    have h3 := addLocalShares_sorted _ mid h2
    have hmem : k ∈ (((((LocalJobBase.new chainId jobId : LocalJobBase K).addLocalShares
        pre).1).addLocalShare k).1.addLocalShares mid).1.submitShares_ := by
      rw [mem_addLocalShares]
      exact Or.inr ((mem_setInsert _ _ _).mpr (Or.inl rfl))
    cases hb : ((((((LocalJobBase.new chainId jobId : LocalJobBase K).addLocalShares
        pre).1).addLocalShare k).1.addLocalShares mid).1.addLocalShare k).2
    · rfl
    · exact absurd hmem ((setInsert_snd _ _ h3).mp hb)
  · rw [count_true_calls _ _ _ h0]
    simp [LocalJobBase.new]

theorem addLocalShare_true_exactly_once_witness :
    ((((LocalJobBase.new 0 7 : LocalJobBase Nat).addLocalShares [5, 9]).1).addLocalShare
        6).2 = true ∧
    ((((((LocalJobBase.new 0 7 : LocalJobBase Nat).addLocalShares [5, 9]).1).addLocalShare
        6).1.addLocalShares [2, 6, 11]).1.addLocalShare 6).2 = false ∧
    ((([5, 9] ++ 6 :: [6, 1]).zip
        ((LocalJobBase.new 0 7 : LocalJobBase Nat).addLocalShares
          ([5, 9] ++ 6 :: [6, 1])).2).filter
        (fun p : Nat × Bool => decide (p.1 = 6) && p.2)).length = 1 :=
  addLocalShare_true_exactly_once 0 7 6 [5, 9] [2, 6, 11] [6, 1] (by decide)

/-- C5 (as stated, refuted): on a job whose share set is empty the first of two
calls `addLocalShare(7)` returns true, so the two calls do not both return false. -/
theorem addLocalShare_twice_not_both_false :
    ((LocalJobBase.new 0 1 : LocalJobBase Nat).addLocalShare 7).2 = true ∧
    (((LocalJobBase.new 0 1 : LocalJobBase Nat).addLocalShare 7).1.addLocalShare 7).2 = false ∧
    ¬ (((LocalJobBase.new 0 1 : LocalJobBase Nat).addLocalShare 7).2 = false ∧
       (((LocalJobBase.new 0 1 : LocalJobBase Nat).addLocalShare 7).1.addLocalShare 7).2
         = false) := by
  decide

/-- C5 (amended): for every `LocalJobBase` and every key `k`, of two calls
`addLocalShare` with an equal key the second returns false, and the first returns
false exactly when an equal key is already in the share set. -/
theorem addLocalShare_twice {K : Type} [LinearOrder K] (job : LocalJobBase K) (k : K)
    (h : job.submitShares_.Sorted (· < ·)) :
    ((job.addLocalShare k).1.addLocalShare k).2 = false ∧
    ((job.addLocalShare k).2 = false ↔ k ∈ job.submitShares_) := by
  refine ⟨setInsert_again _ _, ?_⟩
  have hr : (job.addLocalShare k).2 = true ↔ k ∉ job.submitShares_ := setInsert_snd _ _ h
  cases hb : (job.addLocalShare k).2
  · simp only [true_iff]
    by_contra hn
    rw [hr.mpr hn] at hb
    exact Bool.noConfusion hb
  · simp only [Bool.true_eq_false, false_iff]
    exact hr.mp hb

theorem addLocalShare_twice_witness :
    (((({ chainId_ := 0, jobId_ := 1, submitShares_ := [3, 8] } : LocalJobBase Nat).addLocalShare
        8).1.addLocalShare 8).2 = false) ∧
    ((({ chainId_ := 0, jobId_ := 1, submitShares_ := [3, 8] } : LocalJobBase Nat).addLocalShare
        8).2 = false ↔ 8 ∈ [3, 8]) :=
  addLocalShare_twice { chainId_ := 0, jobId_ := 1, submitShares_ := [3, 8] } 8 (by decide)

/-- C6: for every status code (in particular every defined one), `isAccepted` is
true exactly on ACCEPT, ACCEPT_STALE, SOLVED, SOLVED_STALE; `isSolved` exactly on
SOLVED, SOLVED_STALE, SOLVED_PRELIMINARY; `isAnyStale` exactly on ACCEPT_STALE,
SOLVED_STALE, JOB_NOT_FOUND_OR_STALE, STALE_SHARE; no rejection code satisfies
`isAccepted` or `isSolved`, and no code is both accepted and a rejection code. -/
theorem status_predicates_match_partition (status : Int) :
    (isAccepted status = true ↔ status ∈ [ACCEPT, ACCEPT_STALE, SOLVED, SOLVED_STALE]) ∧
    (isSolved status = true ↔ status ∈ [SOLVED, SOLVED_STALE, SOLVED_PRELIMINARY]) ∧
    (isAnyStale status = true ↔
      status ∈ [ACCEPT_STALE, SOLVED_STALE, JOB_NOT_FOUND_OR_STALE, STALE_SHARE]) ∧
    (∀ switcher, (rejectionCodes switcher).all
        (fun c => !isAccepted c && !isSolved c) = true) ∧
    (∀ switcher, ¬ (isAccepted status = true ∧ status ∈ rejectionCodes switcher)) := by
  have hall : ∀ switcher, (rejectionCodes switcher).all
        (fun c => !isAccepted c && !isSolved c) = true := by decide
  refine ⟨?_, ?_, ?_, hall, ?_⟩
  · simp [isAccepted_iff]
  · simp [isSolved_iff]
  · simp [isAnyStale_iff]
  · rintro sw ⟨ha, hr⟩
    have := List.all_eq_true.mp (hall sw) status hr
    simp [ha] at this

/-- C7: for every integer status, `isAcceptedStale status` implies
`isAccepted status`: every accepted-stale code is also accepted. -/
theorem acceptedStale_isAccepted (status : Int) (h : isAcceptedStale status = true) :
    isAccepted status = true := by
  rcases (isAcceptedStale_iff status).mp h with h | h <;> subst h <;> decide

theorem acceptedStale_isAccepted_witness :
    isAcceptedStale ACCEPT_STALE = true ∧ isAccepted ACCEPT_STALE = true :=
  ⟨by decide, acceptedStale_isAccepted ACCEPT_STALE (by decide)⟩

/-- C8: for every integer that is not a defined `StratumStatus` constant, and for
`UNKNOWN` itself, `isAccepted`, `isAcceptedStale`, `isSolved` and `isAnyStale`
all return false. -/
theorem unknown_status_not_accepted (status : Int) (switcher : Bool)
    (h : status ∉ definedCodes switcher ∨ status = UNKNOWN) :
    isAccepted status = false ∧ isAcceptedStale status = false ∧
    isSolved status = false ∧ isAnyStale status = false := by
  have key : ∀ c : Int, c ∈ [ACCEPT, ACCEPT_STALE, SOLVED, SOLVED_STALE, SOLVED_PRELIMINARY,
      JOB_NOT_FOUND_OR_STALE, STALE_SHARE] → status ≠ c := by
    intro c hc hsc
    subst hsc
    rcases h with h | h
    · apply h
      have hsub : ∀ x ∈ [ACCEPT, ACCEPT_STALE, SOLVED, SOLVED_STALE, SOLVED_PRELIMINARY,
          JOB_NOT_FOUND_OR_STALE, STALE_SHARE], x ∈ definedCodes switcher := by
        cases switcher <;> decide
      exact hsub _ hc
    · subst h
      revert hc
      decide
  have e1 : ¬ isAccepted status = true := by
    rw [isAccepted_iff]
    rintro (h | h | h | h) <;> exact key _ (by simp) h
  have e2 : ¬ isAcceptedStale status = true := by
    rw [isAcceptedStale_iff]
    rintro (h | h) <;> exact key _ (by simp) h
  have e3 : ¬ isSolved status = true := by
    rw [isSolved_iff]
    rintro (h | h | h) <;> exact key _ (by simp) h
  have e4 : ¬ isAnyStale status = true := by
    rw [isAnyStale_iff]
    rintro (h | h | h | h) <;> exact key _ (by simp) h
  exact ⟨Bool.eq_false_iff.mpr e1, Bool.eq_false_iff.mpr e2, Bool.eq_false_iff.mpr e3,
    Bool.eq_false_iff.mpr e4⟩

theorem unknown_status_not_accepted_witness :
    (isAccepted 1798084230 = false ∧ isAcceptedStale 1798084230 = false ∧
      isSolved 1798084230 = false ∧ isAnyStale 1798084230 = false) ∧
    (isAccepted UNKNOWN = false ∧ isAcceptedStale UNKNOWN = false ∧
      isSolved UNKNOWN = false ∧ isAnyStale UNKNOWN = false) :=
  ⟨unknown_status_not_accepted 1798084230 true (Or.inl (by decide)),
   unknown_status_not_accepted UNKNOWN false (Or.inr rfl)⟩

/-- C9: the `StratumStatus` constants are pairwise distinct (with and without
`CLIENT_IS_NOT_SWITCHER`), and every acceptance code is different from and
strictly greater than every rejection code, and different from `UNKNOWN`. -/
theorem status_codes_distinct (switcher : Bool) :
    (definedCodes switcher).Nodup ∧
    (∀ a ∈ acceptanceCodes, ∀ r ∈ rejectionCodes switcher, r < a ∧ a ≠ r) ∧
    (∀ a ∈ acceptanceCodes, a ≠ UNKNOWN) := by
  cases switcher <;> exact ⟨by decide, by decide, by decide⟩

theorem status_codes_distinct_witness :
    CLIENT_IS_NOT_SWITCHER < ACCEPT_STALE ∧ ACCEPT_STALE ≠ CLIENT_IS_NOT_SWITCHER :=
  (status_codes_distinct true).2.1 ACCEPT_STALE (by decide) CLIENT_IS_NOT_SWITCHER (by decide)

/-- C10: for every 32-bit creation time `T` and 32-bit low part `L`, the job id
`(T << 32) | L` has `jobId2Time(jobId) = T`, and `jobTime()` of a `StratumJob`
with that id returns `T`. -/
theorem jobId2Time_of_makeJobId (T L : Nat) (hT : T < 2 ^ 32) (hL : L < 2 ^ 32) :
    jobId2Time (makeJobId T L) = T ∧
    StratumJob.jobTime { jobId_ := makeJobId T L } = T := by
  have h : jobId2Time (makeJobId T L) = T := by
    rw [makeJobId_eq T L hT hL]
    unfold jobId2Time
    rw [and_mask32, Nat.shiftRight_eq_div_pow]
    omega
  exact ⟨h, h⟩

theorem jobId2Time_of_makeJobId_witness :
    jobId2Time (makeJobId 1577836800 3735928559) = 1577836800 ∧
    StratumJob.jobTime { jobId_ := makeJobId 1577836800 3735928559 } = 1577836800 :=
  jobId2Time_of_makeJobId 1577836800 3735928559 (by norm_num) (by norm_num)

/-! ## Further lemmas -/

theorem jobId2Time_eq_div (a : Nat) (ha : a < 2 ^ 64) : jobId2Time a = a / 2 ^ 32 := by
  unfold jobId2Time
  rw [and_mask32, Nat.shiftRight_eq_div_pow]
  omega

theorem setChainIdAndUserIds_length (w : StratumWorker) (calls : List (Nat × Int)) :
    (w.setChainIdAndUserIds calls).userIds_.length = w.userIds_.length := by
  induction calls generalizing w with
  | nil => rfl
  | cons cu rest ih =>
    simp only [StratumWorker.setChainIdAndUserIds]
    rw [ih]
    simp [StratumWorker.setChainIdAndUserId]

theorem setChainIdAndUserIds_untouched (w : StratumWorker) (calls : List (Nat × Int)) (d : Nat)
    (h : ∀ cu ∈ calls, cu.1 ≠ d) :
    (w.setChainIdAndUserIds calls).userIdAt d = w.userIdAt d := by
  induction calls generalizing w with
  | nil => rfl
  | cons cu rest ih =>
    simp only [StratumWorker.setChainIdAndUserIds]
    rw [ih _ (fun x hx => h x (List.mem_cons_of_mem _ hx))]
    have hne : cu.1 ≠ d := h cu (List.mem_cons_self _ _)
    simp [StratumWorker.userIdAt, StratumWorker.setChainIdAndUserId, List.getElem?_set_ne hne]

theorem splitFirstDot_append (u w : List Char) (hu : '.' ∉ u) :
    splitFirstDot (u ++ '.' :: w) = (u, some w) := by
  induction u with
  | nil => simp [splitFirstDot]
  | cons c cs ih =>
    have hc : ¬ c = '.' := fun h => hu (h ▸ List.mem_cons_self _ _)
    have hcs : '.' ∉ cs := fun h => hu (List.mem_cons_of_mem _ h)
    simp [splitFirstDot, hc, ih hcs]

section ResultLemmas

variable {K : Type} [LinearOrder K]

theorem addLocalShares_results_length (job : LocalJobBase K) (ks : List K) :
    (job.addLocalShares ks).2.length = ks.length := by
  induction ks generalizing job with
  | nil => rfl
  | cons k ks ih => simp [LocalJobBase.addLocalShares, ih]

theorem addLocalShares_results_getElem (job : LocalJobBase K) (ks : List K) (i : Nat) :
    (job.addLocalShares ks).2[i]? =
      (ks[i]?).map (fun k => ((job.addLocalShares (ks.take i)).1.addLocalShare k).2) := by
  induction ks generalizing job i with
  | nil => simp [LocalJobBase.addLocalShares]
  | cons k ks ih =>
    cases i with
    | zero => simp [LocalJobBase.addLocalShares]
    | succ i => simp [LocalJobBase.addLocalShares, ih]

theorem setInsert_false_eq (l : List K) (k : K) (h : (setInsert l k).2 = false) :
    (setInsert l k).1 = l := by
  induction l with
  | nil => simp [setInsert] at h
  | cons y ys ih =>
    unfold setInsert at h ⊢
    by_cases h1 : k < y
    · simp [h1] at h
    · by_cases h2 : y < k
      · simp only [h1, h2, if_true, if_false] at h ⊢
        rw [ih h]
      · simp only [h1, h2, if_false]

end ResultLemmas

/-! ## Properties of the specification, continued -/

/-- C11: for all 64-bit job ids `a` and `b`, `a <= b` implies
`jobId2Time(a) <= jobId2Time(b)`, and `jobId2Time(a) < jobId2Time(b)` implies
`a < b`. -/
theorem jobId2Time_monotone (a b : Nat) (ha : a < 2 ^ 64) (hb : b < 2 ^ 64) :
    (a ≤ b → jobId2Time a ≤ jobId2Time b) ∧
    (jobId2Time a < jobId2Time b → a < b) := by
  rw [jobId2Time_eq_div a ha, jobId2Time_eq_div b hb]
  constructor
  · intro h
    exact Nat.div_le_div_right h
  · intro h
    by_contra hn
    exact absurd (Nat.div_le_div_right (c := 2 ^ 32) (not_lt.mp hn)) (not_le.mpr h)

theorem jobId2Time_monotone_witness :
    jobId2Time (makeJobId 1577836800 4294967295) ≤ jobId2Time (makeJobId 1577836801 0) ∧
    makeJobId 1577836800 4294967295 < makeJobId 1577836801 0 :=
  ⟨(jobId2Time_monotone (makeJobId 1577836800 4294967295) (makeJobId 1577836801 0)
      (by decide) (by decide)).1 (by decide),
   (jobId2Time_monotone (makeJobId 1577836800 4294967295) (makeJobId 1577836801 0)
      (by decide) (by decide)).2 (by decide)⟩

/-- C12: for every `LocalJob(chainId, jobId)` and every id `j`, `LocalJob == j` is
true if and only if `jobId == j`, whatever `chainId` is: two entries with the
same job id on different chains compare alike with every id. -/
theorem localJob_eq_ignores_chain (chainId chainId2 jobId j : Nat) :
    (LocalJob.eqJobId { chainId_ := chainId, jobId_ := jobId } j = true ↔ jobId = j) ∧
    LocalJob.eqJobId { chainId_ := chainId, jobId_ := jobId } j =
      LocalJob.eqJobId { chainId_ := chainId2, jobId_ := jobId } j := by
  simp [LocalJob.eqJobId]

/-- C17: each 32-bit binary pattern written beside a `StratumStatus` constant is
that constant's decimal value, and `UNKNOWN` is `2^31 - 1`. -/
theorem status_bit_patterns :
    ACCEPT = 0b01101011001011001001011010000111 ∧
    ACCEPT_STALE = 0b00111000101001011110001000011101 ∧
    SOLVED = 0b01010100110010010110110101101110 ∧
    SOLVED_STALE = 0b01100110001010010101010110101010 ∧
    SOLVED_PRELIMINARY = 0b01101101011010010100110110101101 ∧
    UNKNOWN = 0b01111111111111111111111111111111 ∧
    UNKNOWN = 2 ^ 31 - 1 := by
  decide

/-- C18: for every integer status, `isSolved status` implies `isAccepted status`
or `status = SOLVED_PRELIMINARY`; `isSolved SOLVED_PRELIMINARY` is true and
`isAccepted SOLVED_PRELIMINARY` is false. -/
theorem solved_preliminary_only_unaccepted_solved (status : Int) :
    (isSolved status = true → isAccepted status = true ∨ status = SOLVED_PRELIMINARY) ∧
    isSolved SOLVED_PRELIMINARY = true ∧ isAccepted SOLVED_PRELIMINARY = false := by
  refine ⟨?_, by decide, by decide⟩
  intro h
  rcases (isSolved_iff status).mp h with h | h | h
  · exact Or.inl ((isAccepted_iff status).mpr (Or.inr (Or.inr (Or.inl h))))
  · exact Or.inl ((isAccepted_iff status).mpr (Or.inr (Or.inr (Or.inr h))))
  · exact Or.inr h

theorem solved_preliminary_only_unaccepted_solved_witness :
    isAccepted SOLVED_STALE = true ∨ SOLVED_STALE = SOLVED_PRELIMINARY :=
  (solved_preliminary_only_unaccepted_solved SOLVED_STALE).1 (by decide)

/-- C19: for every integer status, `isAcceptedStale` and `isRejectedStale` are
never both true, `isRejectedStale` implies not `isAccepted`, and `isAnyStale`
holds if and only if exactly one of `isAcceptedStale`, `isRejectedStale` holds. -/
theorem stale_predicates_exclusive (status : Int) :
    ¬ (isAcceptedStale status = true ∧ isRejectedStale status = true) ∧
    (isRejectedStale status = true → isAccepted status = false) ∧
    (isAnyStale status = true ↔
      (isAcceptedStale status = true ∧ isRejectedStale status = false) ∨
      (isAcceptedStale status = false ∧ isRejectedStale status = true)) := by
  have hex : ¬ (isAcceptedStale status = true ∧ isRejectedStale status = true) := by
    rintro ⟨ha, hr⟩
    rcases (isAcceptedStale_iff status).mp ha with h | h <;> subst h <;> revert hr <;> decide
  refine ⟨hex, ?_, ?_⟩
  · intro hr
    rcases (isRejectedStale_iff status).mp hr with h | h <;> subst h <;> decide
  · unfold isAnyStale
    cases ha : isAcceptedStale status <;> cases hr : isRejectedStale status
    · simp
    · simp
    · simp
    · exact absurd ⟨ha, hr⟩ hex

theorem stale_predicates_exclusive_witness : isAccepted STALE_SHARE = false :=
  (stale_predicates_exclusive STALE_SHARE).2.1 (by decide)

/-- C13: for a `StratumWorker` built with `n` chain slots and then given any
earlier calls `setChainIdAndUserId`: after a further call
`setChainIdAndUserId(c, u)` with `c < n`, `userId()` and `userId(c)` return `u`,
`userId(d)` of every other chain `d` is what it was before the call, and
`userId(d)` of every chain `d < n` that no call has set is the invalid sentinel. -/
theorem setChainIdAndUserId_then_userId (n : Nat) (invalidUserId : Int)
    (calls : List (Nat × Int)) (c : Nat) (u : Int) (hc : c < n) :
    (((StratumWorker.new n invalidUserId).setChainIdAndUserIds calls).setChainIdAndUserId
        c u).userId = some u ∧
    (((StratumWorker.new n invalidUserId).setChainIdAndUserIds calls).setChainIdAndUserId
        c u).userIdAt c = some u ∧
    (∀ d, d ≠ c →
      (((StratumWorker.new n invalidUserId).setChainIdAndUserIds calls).setChainIdAndUserId
        c u).userIdAt d =
      ((StratumWorker.new n invalidUserId).setChainIdAndUserIds calls).userIdAt d) ∧
    (∀ d, d < n → d ≠ c → (∀ cu ∈ calls, cu.1 ≠ d) →
      (((StratumWorker.new n invalidUserId).setChainIdAndUserIds calls).setChainIdAndUserId
        c u).userIdAt d = some invalidUserId) := by
  have hlen : ((StratumWorker.new n invalidUserId).setChainIdAndUserIds calls).userIds_.length
      = n := by
    rw [setChainIdAndUserIds_length]
    simp [StratumWorker.new]
  have hset : ∀ d, d ≠ c →
      (((StratumWorker.new n invalidUserId).setChainIdAndUserIds calls).setChainIdAndUserId
        c u).userIdAt d =
      ((StratumWorker.new n invalidUserId).setChainIdAndUserIds calls).userIdAt d := by
    intro d hd
    simp [StratumWorker.userIdAt, StratumWorker.setChainIdAndUserId,
      List.getElem?_set_ne (Ne.symm hd)]
  have hself : (((StratumWorker.new n invalidUserId).setChainIdAndUserIds
      calls).setChainIdAndUserId c u).userIdAt c = some u := by
    simp only [StratumWorker.userIdAt, StratumWorker.setChainIdAndUserId]
    exact List.getElem?_set_self (by omega)
  refine ⟨hself, hself, hset, ?_⟩
  intro d hd hdc hnever
  rw [hset d hdc, setChainIdAndUserIds_untouched _ _ _ hnever]
  simp [StratumWorker.userIdAt, StratumWorker.new, hd]

theorem setChainIdAndUserId_then_userId_witness :
    (((StratumWorker.new 3 0).setChainIdAndUserIds [(0, 41)]).setChainIdAndUserId
        2 77).userId = some 77 ∧
    (((StratumWorker.new 3 0).setChainIdAndUserIds [(0, 41)]).setChainIdAndUserId
        2 77).userIdAt 1 = some 0 :=
  ⟨(setChainIdAndUserId_then_userId 3 0 [(0, 41)] 2 77 (by decide)).1,
   (setChainIdAndUserId_then_userId 3 0 [(0, 41)] 2 77 (by decide)).2.2.2
      1 (by decide) (by decide) (by decide)⟩

/-- C14: for every full name `u + "." + w` where `u` has no `.` and `w` is a
non-empty worker name of allowed characters within the maximum length,
`setNames(fullName, identity, false, "", false)` leaves `userName_ = u`,
`workerName_ = w` and `fullName_ = userName_ + "." + workerName_`. -/
theorem setNames_user_dot_worker (cfg : NameConfig) (self : StratumWorker) (u w : List Char)
    (hu : '.' ∉ u) (hw : w ≠ []) (hallowed : ∀ c ∈ w, cfg.allowedChar c = true)
    (hlen : w.length ≤ cfg.maxWorkerNameLen) :
    (StratumWorker.setNames cfg self (u ++ '.' :: w) id false [] false).userName_ = u ∧
    (StratumWorker.setNames cfg self (u ++ '.' :: w) id false [] false).workerName_ = w ∧
    (StratumWorker.setNames cfg self (u ++ '.' :: w) id false [] false).fullName_ =
      (StratumWorker.setNames cfg self (u ++ '.' :: w) id false [] false).userName_ ++ ['.'] ++
      (StratumWorker.setNames cfg self (u ++ '.' :: w) id false [] false).workerName_ := by
  have hf : filterWorkerName cfg false w = w := by
    unfold filterWorkerName
    rw [List.filter_eq_self.mpr hallowed]
    exact List.take_of_length_le (by simpa using hlen)
  simp [StratumWorker.setNames, splitFirstDot_append u w hu, hf, hw]

theorem setNames_user_dot_worker_witness :
    (StratumWorker.setNames exampleNameConfig (StratumWorker.new 1 0)
      ['a', 'l', 'i', 'c', 'e', '.', 'r', 'i', 'g', '1'] id false [] false).userName_
      = ['a', 'l', 'i', 'c', 'e'] ∧
    (StratumWorker.setNames exampleNameConfig (StratumWorker.new 1 0)
      ['a', 'l', 'i', 'c', 'e', '.', 'r', 'i', 'g', '1'] id false [] false).workerName_
      = ['r', 'i', 'g', '1'] ∧
    (StratumWorker.setNames exampleNameConfig (StratumWorker.new 1 0)
      ['a', 'l', 'i', 'c', 'e', '.', 'r', 'i', 'g', '1'] id false [] false).fullName_
      = ['a', 'l', 'i', 'c', 'e', '.', 'r', 'i', 'g', '1'] :=
  setNames_user_dot_worker exampleNameConfig (StratumWorker.new 1 0)
    ['a', 'l', 'i', 'c', 'e'] ['r', 'i', 'g', '1'] (by decide) (by decide) (by decide)
    (by decide)

/-- C15: for every sequence of `addLocalShare` calls on a `LocalJobBase` that starts
empty, every call gets a return value, and the call at position `i`, made with
key `k`, returns false if and only if `k` was passed to an earlier call of the
sequence, and true if and only if it was not. -/
theorem duplicate_detection_exact {K : Type} [LinearOrder K] (chainId jobId : Nat)
    (ks : List K) (i : Nat) (k : K) (hk : ks[i]? = some k) :
    ((LocalJobBase.new chainId jobId : LocalJobBase K).addLocalShares ks).2.length
      = ks.length ∧
    (((LocalJobBase.new chainId jobId : LocalJobBase K).addLocalShares ks).2[i]? = some false
      ↔ k ∈ ks.take i) ∧
    (((LocalJobBase.new chainId jobId : LocalJobBase K).addLocalShares ks).2[i]? = some true
      ↔ k ∉ ks.take i) := by
  have h0 : (LocalJobBase.new chainId jobId : LocalJobBase K).submitShares_.Sorted (· < ·) := by
    simp [LocalJobBase.new]
  have hs := addLocalShares_sorted _ (ks.take i) h0
  have hr : (((LocalJobBase.new chainId jobId : LocalJobBase K).addLocalShares
      (ks.take i)).1.addLocalShare k).2 = true ↔ k ∉ ks.take i := by
    have h := setInsert_snd _ k hs
    rw [mem_addLocalShares] at h
    simpa [LocalJobBase.new, LocalJobBase.addLocalShare] using h
  refine ⟨addLocalShares_results_length _ _, ?_, ?_⟩
  · rw [addLocalShares_results_getElem, hk, Option.map_some', Option.some.injEq]
    constructor
    · intro hf
      by_contra hn
      rw [hr.mpr hn] at hf
      exact Bool.noConfusion hf
    · intro hin
      cases hb : (((LocalJobBase.new chainId jobId : LocalJobBase K).addLocalShares
          (ks.take i)).1.addLocalShare k).2
      · rfl
      · exact absurd hin (hr.mp hb)
  · rw [addLocalShares_results_getElem, hk, Option.map_some', Option.some.injEq]
    exact hr

theorem duplicate_detection_exact_witness :
    ((LocalJobBase.new 0 9 : LocalJobBase Nat).addLocalShares [4, 2, 4, 7, 2]).2.length = 5 ∧
    (((LocalJobBase.new 0 9 : LocalJobBase Nat).addLocalShares [4, 2, 4, 7, 2]).2[4]?
        = some false ↔ 2 ∈ [4, 2, 4, 7, 2].take 4) ∧
    (((LocalJobBase.new 0 9 : LocalJobBase Nat).addLocalShares [4, 2, 4, 7, 2]).2[4]?
        = some true ↔ 2 ∉ [4, 2, 4, 7, 2].take 4) :=
  duplicate_detection_exact 0 9 [4, 2, 4, 7, 2] 4 2 (by decide)

/-- C16: `UnserializeWithVersion` returns true if and only if the pointer is not
null, `size > 4`, the first 4 bytes equal `CURRENT_VERSION` and `ParseFromArray`
succeeds on exactly the `size - 4` bytes from offset 4; when the version differs
the result is false with the message untouched, whatever the native parser is. -/
theorem unserialize_true_iff {M : Type} (e : sharebase.Endian) (ops : sharebase.ShareMsg M)
    (CURRENT_VERSION : Nat) (self : M) (data : Option (List sharebase.Byte)) (size : Nat) :
    ((sharebase.UnserializeWithVersion e ops CURRENT_VERSION self data size).1 = true ↔
      ∃ mem, data = some mem ∧ 4 < size ∧
        sharebase.load32 e mem = CURRENT_VERSION % 2 ^ 32 ∧
        (ops.ParseFromArray self ((mem.drop 4).take (size - 4))).1 = true) ∧
    (∀ mem, data = some mem → sharebase.load32 e mem ≠ CURRENT_VERSION % 2 ^ 32 →
      ∀ parser : M → List sharebase.Byte → Bool × M,
        sharebase.UnserializeWithVersion e { ops with ParseFromArray := parser }
          CURRENT_VERSION self data size = (false, self)) := by
  constructor
  · cases data with
    | none => simp [sharebase.UnserializeWithVersion]
    | some mem =>
      by_cases hs : size ≤ 4
      · have hn : ¬ 4 < size := by omega
        simp [sharebase.UnserializeWithVersion, hs, hn]
      · have hp : 4 < size := by omega
        by_cases hv : sharebase.load32 e mem = CURRENT_VERSION % 2 ^ 32
        · simp [sharebase.UnserializeWithVersion, hs, hp, hv]
        · simp only [sharebase.UnserializeWithVersion, if_neg hs, if_neg hv]
          constructor
          · intro h
            simp at h
          · rintro ⟨mem2, hm, _, hv2, _⟩
            cases hm
            exact absurd hv2 hv
  · intro mem hd hv parser
    subst hd
    simp only [sharebase.UnserializeWithVersion, if_neg hv]
    split <;> rfl

theorem unserialize_true_iff_witness :
    sharebase.UnserializeWithVersion .little
      { sharebase.versionOnlyMsg with ParseFromArray := fun _ _ => (true, 9) }
      3 0 (some [1, 0, 0, 0, 8, 3]) 6 = (false, 0) :=
  (unserialize_true_iff .little sharebase.versionOnlyMsg 3 0 (some [1, 0, 0, 0, 8, 3]) 6).2
    [1, 0, 0, 0, 8, 3] rfl (by decide) (fun _ _ => (true, 9))

/-- C20: `addLocalShare(k)` leaves `chainId_` and `jobId_` unchanged, every key other
than `k` is in the share set afterwards if and only if it was before, `k` is in
the set afterwards, and when the call returns false the share set is exactly
the set before the call. -/
theorem addLocalShare_frame {K : Type} [LinearOrder K] (job : LocalJobBase K) (k : K) :
    (job.addLocalShare k).1.chainId_ = job.chainId_ ∧
    (job.addLocalShare k).1.jobId_ = job.jobId_ ∧
    (∀ x, x ≠ k → (x ∈ (job.addLocalShare k).1.submitShares_ ↔ x ∈ job.submitShares_)) ∧
    k ∈ (job.addLocalShare k).1.submitShares_ ∧
    ((job.addLocalShare k).2 = false →
      (job.addLocalShare k).1.submitShares_ = job.submitShares_) := by
  refine ⟨rfl, rfl, ?_, ?_, ?_⟩
  · intro x hx
    simp [LocalJobBase.addLocalShare, mem_setInsert, hx]
  · simp [LocalJobBase.addLocalShare, mem_setInsert]
  · intro h
    exact setInsert_false_eq _ _ h

theorem addLocalShare_frame_witness :
    (({ chainId_ := 2, jobId_ := 5, submitShares_ := [3, 8] } : LocalJobBase Nat).addLocalShare
        8).1.submitShares_ = [3, 8] :=
  (addLocalShare_frame ({ chainId_ := 2, jobId_ := 5, submitShares_ := [3, 8] } :
    LocalJobBase Nat) 8).2.2.2.2 (by decide)

end Stratum
